import Mathlib

/-!
Verification of the sleeping-TA simulation (`TA_Sim.c`).

The program is a pthread program: one TA thread (the server), `num_students`
student threads (the clients), a driver (`main`), a mutex protecting the
shared counters `waiting_students`, `students_finished`, `all_done`, and a
counting semaphore `students_sem` that wakes the TA.

We embed the program as a labelled transition system.  Every lock-protected
critical section of the C program is one atomic transition (the mutex totally
orders all accesses to the shared counters), the semaphore is a natural-number
counter (`sem_wait` is enabled only when the count is positive), and each
thread carries a program counter marking which statement it executes next.
The `sleep`/`printf` calls do not touch shared state and are modelled as
no-ops.  Ghost counters (`admissions`, `helps`, per-student `admits` and
`rejects`) record event histories; they influence nothing.
-/

namespace TASim

/-- `HELP_REQUESTS_PER_STUDENT` from `TA_Sim.c`: how many help-request cycles
each student runs. -/
def HELP_REQUESTS_PER_STUDENT : Nat := 3

/-- Result of one admission attempt (the `waiting_students < num_chairs`
branch in `student_thread`). -/
inductive AdmitResult where
  | Admitted
  | Rejected
deriving DecidableEq

/-- Validated startup configuration: `num_students` and `num_chairs`,
read by `main` before any thread is created. -/
structure Config where
  num_students : Nat
  num_chairs : Nat
deriving DecidableEq

/-- Input validation in `main` (TA_Sim.c lines 63-66): if
`num_students <= 0 || num_chairs < 0` the process prints an error and
returns 1 before any thread is created; otherwise the run proceeds. -/
def checkConfig (ns nc : Int) : Except Int Config :=
  if ns ≤ 0 ∨ nc < 0 then Except.error 1 else Except.ok ⟨ns.toNat, nc.toNat⟩

/-- Program counter of one student thread (`student_thread`):
`working` = about to run the admission critical section of the current cycle;
`posting` = admitted, about to `sem_post`;
`retiring` = all cycles done, about to run the finish critical section;
`retired` = thread has exited. -/
inductive StPC where
  | working
  | posting
  | retiring
  | retired
deriving DecidableEq

/-- State of one student thread.  `cycles` counts completed loop iterations
of the `for` loop in `student_thread`; `admits` and `rejects` are ghost
counters of how many attempts were admitted / rejected. -/
structure StudentState where
  pc : StPC
  cycles : Nat
  admits : Nat
  rejects : Nat
deriving DecidableEq

/-- Program counter of the TA thread (`ta_thread`):
`idle` = blocked at `sem_wait`;
`checking` = consumed one semaphore token, about to run the critical section;
`done` = the loop was exited and the thread terminated. -/
inductive TaPC where
  | idle
  | checking
  | done
deriving DecidableEq

/-- Program counter of the driver (`main`) after thread creation:
`joining` = joining the student threads;
`postFinal` = all students joined and `all_done` set, about to `sem_post`;
`joinTa` = final post done, joining the TA thread;
`done` = `main` past the TA join. -/
inductive MainPC where
  | joining
  | postFinal
  | joinTa
  | done
deriving DecidableEq

/-- Global state of the simulation: the shared variables of `TA_Sim.c`
(`waiting_students`, `students_finished`, `all_done`, the semaphore count of
`students_sem`), the program counters of every thread, and the ghost
counters `admissions` (successful seatings) and `helps` (TA decrements). -/
structure SimState where
  waiting_students : Int
  students_finished : Int
  all_done : Bool
  sem : Nat
  ta : TaPC
  students : List StudentState
  mainPc : MainPC
  admissions : Nat
  helps : Nat
deriving DecidableEq

/-- Initial state: counters zero, flag clear, semaphore zero, TA at
`sem_wait`, every student at the top of its loop, `main` joining. -/
def initState (cfg : Config) : SimState :=
  { waiting_students := 0
    students_finished := 0
    all_done := false
    sem := 0
    ta := TaPC.idle
    students := List.replicate cfg.num_students ⟨StPC.working, 0, 0, 0⟩
    mainPc := MainPC.joining
    admissions := 0
    helps := 0 }

/-- The admission critical section of `student_thread` (TA_Sim.c lines
268-299), the spec's `tryOccupySeat`: under the lock, if
`waiting_students < num_chairs` increment the count and report `Admitted`,
else leave it unchanged and report `Rejected`.  Returns the new value of
`waiting_students` together with the outcome. -/
def tryOccupySeat (num_chairs w : Int) : Int × AdmitResult :=
  if w < num_chairs then (w + 1, AdmitResult.Admitted) else (w, AdmitResult.Rejected)

/-- One atomic step of student `i` (`student_thread`), dispatching on its
program counter: the admission critical section (using `tryOccupySeat`),
the `sem_post` after a successful seating, or the finish critical section
(TA_Sim.c lines 313-320) that increments `students_finished` and sets
`all_done` when the last student finishes.  `none` when the student thread
does not exist or has exited. -/
def stepStudent (cfg : Config) (s : SimState) (i : Nat) : Option SimState :=
  match s.students.get? i with
  | none => none
  | some st =>
    match st.pc with
    | StPC.working =>
      let res := tryOccupySeat (cfg.num_chairs : Int) s.waiting_students
      match res.2 with
      | AdmitResult.Admitted =>
        some { s with
          waiting_students := res.1
          admissions := s.admissions + 1
          students := s.students.set i
            { st with pc := StPC.posting, admits := st.admits + 1 } }
      | AdmitResult.Rejected =>
        some { s with
          students := s.students.set i
            { st with
              pc := if st.cycles + 1 < HELP_REQUESTS_PER_STUDENT
                    then StPC.working else StPC.retiring
              cycles := st.cycles + 1
              rejects := st.rejects + 1 } }
    | StPC.posting =>
      some { s with
        sem := s.sem + 1
        students := s.students.set i
          { st with
            pc := if st.cycles + 1 < HELP_REQUESTS_PER_STUDENT
                  then StPC.working else StPC.retiring
            cycles := st.cycles + 1 } }
    | StPC.retiring =>
      some { s with
        students_finished := s.students_finished + 1
        all_done := if s.students_finished + 1 = (cfg.num_students : Int)
                    then true else s.all_done
        students := s.students.set i { st with pc := StPC.retired } }
    | StPC.retired => none

/-- One atomic step of the TA thread (`ta_thread`): either consume one
semaphore token (`sem_wait`, enabled only when the count is positive), or
run the critical section of TA_Sim.c lines 193-227: exit when
`all_done && waiting_students == 0`, else help one student when
`waiting_students > 0`, else a spurious wake.  `none` once the thread has
exited or while `sem_wait` is blocked. -/
def stepTa (s : SimState) : Option SimState :=
  match s.ta with
  | TaPC.idle =>
    if s.sem > 0 then some { s with sem := s.sem - 1, ta := TaPC.checking } else none
  | TaPC.checking =>
    if s.all_done = true ∧ s.waiting_students = 0 then
      some { s with ta := TaPC.done }
    else if s.waiting_students > 0 then
      some { s with
        waiting_students := s.waiting_students - 1
        helps := s.helps + 1
        ta := TaPC.idle }
    else
      some { s with ta := TaPC.idle }
  | TaPC.done => none

/-- `true` when every student thread has exited (the join barrier of
`main`, TA_Sim.c lines 131-133). -/
def allRetiredB (s : SimState) : Bool :=
  s.students.all (fun st => st.pc == StPC.retired)

/-- The shutdown critical section of `main` (TA_Sim.c lines 137-139), the
spec's terminal-forcing operation: under the lock, set `all_done = 1`.
Nothing else changes. -/
def forceTerminal (s : SimState) : SimState :=
  { s with all_done := true }

/-- One atomic step of the driver (`main`) after thread creation: pass the
join barrier and force `all_done` (enabled only once every student has
exited), then the unconditional final `sem_post` (line 142), then the join
of the TA thread (enabled only once the TA exited). -/
def stepMain (s : SimState) : Option SimState :=
  match s.mainPc with
  | MainPC.joining =>
    if allRetiredB s then some { forceTerminal s with mainPc := MainPC.postFinal }
    else none
  | MainPC.postFinal =>
    some { s with sem := s.sem + 1, mainPc := MainPC.joinTa }
  | MainPC.joinTa =>
    if s.ta = TaPC.done then some { s with mainPc := MainPC.done } else none
  | MainPC.done => none

/-- Scheduling label: which thread takes the next atomic step. -/
inductive Label where
  | student (i : Nat)
  | ta
  | driver
deriving DecidableEq

/-- The labelled step function of the whole system. -/
def stepL (cfg : Config) (l : Label) (s : SimState) : Option SimState :=
  match l with
  | Label.student i => stepStudent cfg s i
  | Label.ta => stepTa s
  | Label.driver => stepMain s

/-- The step relation: some thread takes one atomic step. -/
def Step (cfg : Config) (s s' : SimState) : Prop :=
  ∃ l, stepL cfg l s = some s'

/-- Reachability from the initial state under arbitrary interleaving. -/
def Reachable (cfg : Config) (s : SimState) : Prop :=
  Relation.ReflTransGen (Step cfg) (initState cfg) s

/-- Run a concrete schedule (list of labels) from a state; `none` if some
label is not enabled. -/
def runLabels (cfg : Config) (ls : List Label) (s : SimState) : Option SimState :=
  match ls with
  | [] => some s
  | l :: rest =>
    match stepL cfg l s with
    | none => none
    | some s' => runLabels cfg rest s'

/-- `true` once the driver has performed the final `sem_post`. -/
def finalPosted (s : SimState) : Bool :=
  s.mainPc == MainPC.joinTa || s.mainPc == MainPC.done

/-- Number of student threads that have exited. -/
def countRetired (l : List StudentState) : Nat :=
  l.countP (fun st => st.pc == StPC.retired)

/-- Number of student threads between their seat increment and their
`sem_post`. -/
def countPosting (l : List StudentState) : Nat :=
  l.countP (fun st => st.pc == StPC.posting)

/-- Termination measure for the TA's drain phase. -/
def taMeasure (s : SimState) : Nat :=
  match s.ta with
  | TaPC.idle => 2 * s.waiting_students.toNat + 2
  | TaPC.checking => 2 * s.waiting_students.toNat + 1
  | TaPC.done => 0

/-- Updating one list element changes a `countP` by the difference of the
predicate on the old and new element. -/
theorem countP_set_add {α : Type} (p : α → Bool) (l : List α) (i : Nat) (a b : α)
    (h : l.get? i = some a) :
    (l.set i b).countP p + (if p a then 1 else 0)
      = l.countP p + (if p b then 1 else 0) := by
  induction l generalizing i with
  | nil => simp at h
  | cons x xs ih =>
    cases i with
    | zero =>
      simp only [List.get?] at h
      injection h with h
      subst h
      simp only [List.set, List.countP_cons]
      split_ifs <;> omega
    | succ n =>
      simp only [List.get?] at h
      have hx := ih n h
      simp only [List.set, List.countP_cons]
      split_ifs at hx ⊢ <;> omega

/-- Per-student sanity: the cycle counter never exceeds
`HELP_REQUESTS_PER_STUDENT` and matches the program counter. -/
def stOk (st : StudentState) : Prop :=
  st.cycles ≤ HELP_REQUESTS_PER_STUDENT
  ∧ (st.pc = StPC.working → st.cycles < HELP_REQUESTS_PER_STUDENT)
  ∧ (st.pc = StPC.posting → st.cycles < HELP_REQUESTS_PER_STUDENT)
  ∧ (st.pc = StPC.retiring → st.cycles = HELP_REQUESTS_PER_STUDENT)
  ∧ (st.pc = StPC.retired → st.cycles = HELP_REQUESTS_PER_STUDENT)

/-- The global inductive invariant of the transition system.  The fields:
the student list has the configured length; `waiting_students` stays inside
`[0, num_chairs]`; seatings minus helps equals the current occupancy;
`students_finished` counts exactly the exited students; `all_done` implies
every student exited; the semaphore accounting (every token posted is either
pending, consumed by a help, held by the TA between `sem_wait` and its
check, consumed by the exit, or still to be posted by a seated student);
the TA exits only with `all_done` set and an empty hallway; the driver
passes its join barrier only when every student exited, and from then on
`all_done` is set; every student satisfies `stOk`. -/
structure Inv (cfg : Config) (s : SimState) : Prop where
  len : s.students.length = cfg.num_students
  wait_lo : 0 ≤ s.waiting_students
  wait_hi : s.waiting_students ≤ (cfg.num_chairs : Int)
  conserv : s.waiting_students = (s.admissions : Int) - (s.helps : Int)
  fin_count : s.students_finished = (countRetired s.students : Int)
  done_imp : s.all_done = true → countRetired s.students = cfg.num_students
  sem_eq : s.sem + s.helps + (if s.ta = TaPC.checking then 1 else 0)
      + (if s.ta = TaPC.done then 1 else 0) + countPosting s.students
    = s.admissions + (if finalPosted s then 1 else 0)
  ta_done : s.ta = TaPC.done → s.all_done = true ∧ s.waiting_students = 0
  main_retired : s.mainPc ≠ MainPC.joining → countRetired s.students = cfg.num_students
  main_done : s.mainPc ≠ MainPC.joining → s.all_done = true
  students_ok : ∀ st ∈ s.students, stOk st

/-- The initial state satisfies the invariant. -/
theorem inv_init (cfg : Config) : Inv cfg (initState cfg) := by
  have hcnt : countRetired (initState cfg).students = 0 := by
    rw [countRetired, List.countP_eq_zero]
    intro st hmem
    rw [List.eq_of_mem_replicate hmem]
    simp
  have hp : countPosting (initState cfg).students = 0 := by
    rw [countPosting, List.countP_eq_zero]
    intro st hmem
    rw [List.eq_of_mem_replicate hmem]
    simp
  refine ⟨?_, ?_, ?_, ?_, ?_, ?_, ?_, ?_, ?_, ?_, ?_⟩
  · simp [initState]
  · simp [initState]
  · simp [initState]
  · simp [initState]
  · rw [hcnt]; simp [initState]
  · simp [initState]
  · rw [hp]; simp [initState, finalPosted]
  · simp [initState]
  · simp [initState]
  · simp [initState]
  · intro st hmem
    simp only [initState] at hmem
    rw [List.eq_of_mem_replicate hmem]
    simp [stOk, HELP_REQUESTS_PER_STUDENT]

/-- When every student has exited (full retired count), any student found in
the list is retired. -/
theorem pc_retired_of_full {cfg : Config} {s : SimState}
    (len : s.students.length = cfg.num_students)
    (hcnt : countRetired s.students = cfg.num_students)
    {i : Nat} {st : StudentState} (hget : s.students.get? i = some st) :
    st.pc = StPC.retired := by
  have hmem := List.get?_mem hget
  have hall : ∀ a ∈ s.students, (fun st => st.pc == StPC.retired) a = true :=
    List.countP_eq_length.mp (by rw [countRetired] at hcnt; omega)
  simpa using hall st hmem

/-- Specialisation of `countP_set_add` to the retired count. -/
theorem countRetired_set (l : List StudentState) (i : Nat) (a b : StudentState)
    (h : l.get? i = some a) :
    countRetired (l.set i b) + (if a.pc == StPC.retired then 1 else 0)
      = countRetired l + (if b.pc == StPC.retired then 1 else 0) :=
  countP_set_add _ l i a b h

/-- Specialisation of `countP_set_add` to the posting count. -/
theorem countPosting_set (l : List StudentState) (i : Nat) (a b : StudentState)
    (h : l.get? i = some a) :
    countPosting (l.set i b) + (if a.pc == StPC.posting then 1 else 0)
      = countPosting l + (if b.pc == StPC.posting then 1 else 0) :=
  countP_set_add _ l i a b h

/-- One student step preserves the invariant. -/
theorem inv_step_student (cfg : Config) {s s' : SimState} (hs : Inv cfg s) (i : Nat)
    (h : stepStudent cfg s i = some s') : Inv cfg s' := by
  obtain ⟨len, wait_lo, wait_hi, conserv, fin_count, done_imp, sem_eq, ta_done,
    main_retired, main_done, students_ok⟩ := hs
  cases hget : s.students.get? i with
  | none =>
    simp only [stepStudent, hget] at h
    exact Option.noConfusion h
  | some st =>
    have hmem := List.get?_mem hget
    obtain ⟨hc_le, hc_w, hc_p, hc_r, hc_d⟩ := students_ok st hmem
    cases hpc : st.pc with
    | working =>
      by_cases hw : s.waiting_students < (cfg.num_chairs : Int)
      · -- admission succeeds: seat taken, `waiting_students` incremented
        simp only [stepStudent, hget, hpc, tryOccupySeat, hw, if_pos] at h
        injection h with h
        subst h
        have hR :
            countRetired (s.students.set i
                { st with pc := StPC.posting, admits := st.admits + 1 })
              = countRetired s.students := by
          have := countRetired_set s.students i st
            { st with pc := StPC.posting, admits := st.admits + 1 } hget
          rw [hpc] at this
          simpa using this
        have hP :
            countPosting (s.students.set i
                { st with pc := StPC.posting, admits := st.admits + 1 })
              = countPosting s.students + 1 := by
          have := countPosting_set s.students i st
            { st with pc := StPC.posting, admits := st.admits + 1 } hget
          rw [hpc] at this
          simpa using this
        refine ⟨?_, ?_, ?_, ?_, ?_, ?_, ?_, ?_, ?_, ?_, ?_⟩
        · simpa using len
        · dsimp only; omega
        · dsimp only; omega
        · dsimp only; push_cast at conserv ⊢; omega
        · dsimp only; omega
        · dsimp only
          intro hd
          rw [hR]
          exact done_imp hd
        · simp only [finalPosted] at sem_eq ⊢
          dsimp only
          omega
        · dsimp only
          intro hd
          have heq := pc_retired_of_full len (done_imp (ta_done hd).1) hget
          rw [hpc] at heq
          cases heq
        · dsimp only
          intro hm
          rw [hR]
          exact main_retired hm
        · dsimp only
          exact main_done
        · dsimp only
          intro a ha
          rcases List.mem_or_eq_of_mem_set ha with hmem' | rfl
          · exact students_ok a hmem'
          · have hlt := hc_w hpc
            exact ⟨by dsimp only; omega, fun hx => StPC.noConfusion hx, fun _ => hlt,
              fun hx => StPC.noConfusion hx, fun hx => StPC.noConfusion hx⟩
      · -- hallway full: admission rejected, only the student's ghost changes
        simp only [stepStudent, hget, hpc, tryOccupySeat, hw, if_neg] at h
        injection h with h
        subst h
        set st' : StudentState :=
          { st with
            pc := if st.cycles + 1 < HELP_REQUESTS_PER_STUDENT
                  then StPC.working else StPC.retiring
            cycles := st.cycles + 1
            rejects := st.rejects + 1 } with hst'
        have hnr : (st'.pc == StPC.retired) = false := by
          rw [hst']
          by_cases hc : st.cycles + 1 < HELP_REQUESTS_PER_STUDENT <;> simp [hc]
        have hnp : (st'.pc == StPC.posting) = false := by
          rw [hst']
          by_cases hc : st.cycles + 1 < HELP_REQUESTS_PER_STUDENT <;> simp [hc]
        have hR : countRetired (s.students.set i st') = countRetired s.students := by
          have := countRetired_set s.students i st st' hget
          rw [hpc, hnr] at this
          simpa using this
        have hP : countPosting (s.students.set i st') = countPosting s.students := by
          have := countPosting_set s.students i st st' hget
          rw [hpc, hnp] at this
          simpa using this
        refine ⟨?_, ?_, ?_, ?_, ?_, ?_, ?_, ?_, ?_, ?_, ?_⟩
        · simpa using len
        · exact wait_lo
        · exact wait_hi
        · exact conserv
        · dsimp only; omega
        · dsimp only
          intro hd
          rw [hR]
          exact done_imp hd
        · simp only [finalPosted] at sem_eq ⊢
          dsimp only
          omega
        · dsimp only
          exact ta_done
        · dsimp only
          intro hm
          rw [hR]
          exact main_retired hm
        · dsimp only
          exact main_done
        · dsimp only
          intro a ha
          rcases List.mem_or_eq_of_mem_set ha with hmem' | rfl
          · exact students_ok a hmem'
          · have hlt := hc_w hpc
            rw [hst']
            by_cases hc : st.cycles + 1 < HELP_REQUESTS_PER_STUDENT
            · rw [if_pos hc]
              exact ⟨by dsimp only; omega, fun _ => hc, fun hx => StPC.noConfusion hx,
                fun hx => StPC.noConfusion hx, fun hx => StPC.noConfusion hx⟩
            · rw [if_neg hc]
              exact ⟨by dsimp only; omega, fun hx => StPC.noConfusion hx,
                fun hx => StPC.noConfusion hx, fun _ => by dsimp only; omega,
                fun hx => StPC.noConfusion hx⟩
    | posting =>
      simp only [stepStudent, hget, hpc] at h
      injection h with h
      subst h
      set st' : StudentState :=
        { st with
          pc := if st.cycles + 1 < HELP_REQUESTS_PER_STUDENT
                then StPC.working else StPC.retiring
          cycles := st.cycles + 1 } with hst'
      have hnr : (st'.pc == StPC.retired) = false := by
        rw [hst']
        by_cases hc : st.cycles + 1 < HELP_REQUESTS_PER_STUDENT <;> simp [hc]
      have hnp : (st'.pc == StPC.posting) = false := by
        rw [hst']
        by_cases hc : st.cycles + 1 < HELP_REQUESTS_PER_STUDENT <;> simp [hc]
      have hR : countRetired (s.students.set i st') = countRetired s.students := by
        have := countRetired_set s.students i st st' hget
        rw [hpc, hnr] at this
        simpa using this
      have hP : countPosting (s.students.set i st') + 1 = countPosting s.students := by
        have := countPosting_set s.students i st st' hget
        rw [hpc, hnp] at this
        simpa using this
      refine ⟨?_, ?_, ?_, ?_, ?_, ?_, ?_, ?_, ?_, ?_, ?_⟩
      · simpa using len
      · exact wait_lo
      · exact wait_hi
      · exact conserv
      · dsimp only; omega
      · dsimp only
        intro hd
        rw [hR]
        exact done_imp hd
      · simp only [finalPosted] at sem_eq ⊢
        dsimp only
        omega
      · dsimp only
        exact ta_done
      · dsimp only
        intro hm
        rw [hR]
        exact main_retired hm
      · dsimp only
        exact main_done
      · dsimp only
        intro a ha
        rcases List.mem_or_eq_of_mem_set ha with hmem' | rfl
        · exact students_ok a hmem'
        · have hlt := hc_p hpc
          rw [hst']
          by_cases hc : st.cycles + 1 < HELP_REQUESTS_PER_STUDENT
          · rw [if_pos hc]
            exact ⟨by dsimp only; omega, fun _ => hc, fun hx => StPC.noConfusion hx,
              fun hx => StPC.noConfusion hx, fun hx => StPC.noConfusion hx⟩
          · rw [if_neg hc]
            exact ⟨by dsimp only; omega, fun hx => StPC.noConfusion hx,
              fun hx => StPC.noConfusion hx, fun _ => by dsimp only; omega,
              fun hx => StPC.noConfusion hx⟩
    | retiring =>
      simp only [stepStudent, hget, hpc] at h
      injection h with h
      subst h
      have hR : countRetired (s.students.set i { st with pc := StPC.retired })
          = countRetired s.students + 1 := by
        have := countRetired_set s.students i st { st with pc := StPC.retired } hget
        rw [hpc] at this
        simpa using this
      have hP : countPosting (s.students.set i { st with pc := StPC.retired })
          = countPosting s.students := by
        have := countPosting_set s.students i st { st with pc := StPC.retired } hget
        rw [hpc] at this
        simpa using this
      refine ⟨?_, ?_, ?_, ?_, ?_, ?_, ?_, ?_, ?_, ?_, ?_⟩
      · simpa using len
      · exact wait_lo
      · exact wait_hi
      · exact conserv
      · dsimp only; omega
      · dsimp only
        intro hd
        by_cases hb : s.students_finished + 1 = (cfg.num_students : Int)
        · omega
        · rw [if_neg hb] at hd
          have heq := pc_retired_of_full len (done_imp hd) hget
          rw [hpc] at heq
          cases heq
      · simp only [finalPosted] at sem_eq ⊢
        dsimp only
        omega
      · dsimp only
        intro hd
        have heq := pc_retired_of_full len (done_imp (ta_done hd).1) hget
        rw [hpc] at heq
        cases heq
      · dsimp only
        intro hm
        have heq := pc_retired_of_full len (main_retired hm) hget
        rw [hpc] at heq
        cases heq
      · dsimp only
        intro hm
        by_cases hb : s.students_finished + 1 = (cfg.num_students : Int)
        · rw [if_pos hb]
        · rw [if_neg hb]
          exact main_done hm
      · dsimp only
        intro a ha
        rcases List.mem_or_eq_of_mem_set ha with hmem' | rfl
        · exact students_ok a hmem'
        · have hceq := hc_r hpc
          exact ⟨by dsimp only; omega, fun hx => StPC.noConfusion hx,
            fun hx => StPC.noConfusion hx, fun hx => StPC.noConfusion hx,
            fun _ => hceq⟩
    | retired =>
      simp only [stepStudent, hget, hpc] at h
      exact Option.noConfusion h


/-- One TA step preserves the invariant.  The spurious-wake branch turns out
to be unreachable: a consumed token with an empty hallway forces the final
post to have happened, hence `all_done` to be set. -/
theorem inv_step_ta (cfg : Config) {s s' : SimState} (hs : Inv cfg s)
    (h : stepTa s = some s') : Inv cfg s' := by
  obtain ⟨len, wait_lo, wait_hi, conserv, fin_count, done_imp, sem_eq, ta_done,
    main_retired, main_done, students_ok⟩ := hs
  cases hta : s.ta with
  | idle =>
    by_cases hsem : s.sem > 0
    · -- `sem_wait` returns: one token consumed, TA moves to its check
      simp only [stepTa, hta, hsem, if_pos] at h
      injection h with h
      subst h
      refine ⟨len, wait_lo, wait_hi, conserv, fin_count, done_imp, ?_, ?_,
        main_retired, main_done, students_ok⟩
      · simp only [finalPosted] at sem_eq ⊢
        dsimp only
        rw [hta] at sem_eq
        simp only [reduceCtorEq, if_false, if_true, if_neg, if_pos] at sem_eq ⊢
        simp at sem_eq ⊢
        omega
      · intro hd
        exact TaPC.noConfusion hd
    · simp only [stepTa, hta, hsem, if_neg] at h
      exact Option.noConfusion h
  | checking =>
    by_cases hcond : s.all_done = true ∧ s.waiting_students = 0
    · -- the sole exit branch: `all_done && waiting_students == 0`
      simp only [stepTa, hta] at h
      rw [if_pos hcond] at h
      injection h with h
      subst h
      refine ⟨len, wait_lo, wait_hi, conserv, fin_count, done_imp, ?_, ?_,
        main_retired, main_done, students_ok⟩
      · simp only [finalPosted] at sem_eq ⊢
        dsimp only
        rw [hta] at sem_eq
        simp at sem_eq ⊢
        omega
      · intro _
        exact ⟨hcond.1, hcond.2⟩
    · by_cases hwpos : s.waiting_students > 0
      · -- help one waiting student: `waiting_students--`
        simp only [stepTa, hta, hcond, hwpos, if_neg, if_pos] at h
        injection h with h
        subst h
        refine ⟨len, by dsimp only; omega, by dsimp only; omega,
          by dsimp only; push_cast at conserv ⊢; omega, fin_count, done_imp, ?_, ?_,
          main_retired, main_done, students_ok⟩
        · simp only [finalPosted] at sem_eq ⊢
          dsimp only
          rw [hta] at sem_eq
          simp at sem_eq ⊢
          omega
        · intro hd
          exact TaPC.noConfusion hd
      · -- spurious wake: unreachable under the invariant
        exfalso
        have hw0 : s.waiting_students = 0 := by omega
        have hadm : s.admissions = s.helps := by omega
        have hfp : finalPosted s = true := by
          rw [hta] at sem_eq
          simp at sem_eq
          by_contra hf
          rw [Bool.not_eq_true] at hf
          rw [hf] at sem_eq
          simp at sem_eq
          omega
        have hmj : s.mainPc ≠ MainPC.joining := by
          intro hj
          rw [finalPosted, hj] at hfp
          simp at hfp
        exact hcond ⟨main_done hmj, hw0⟩
  | done =>
    simp only [stepTa, hta] at h
    exact Option.noConfusion h

/-- One driver step preserves the invariant. -/
theorem inv_step_main (cfg : Config) {s s' : SimState} (hs : Inv cfg s)
    (h : stepMain s = some s') : Inv cfg s' := by
  obtain ⟨len, wait_lo, wait_hi, conserv, fin_count, done_imp, sem_eq, ta_done,
    main_retired, main_done, students_ok⟩ := hs
  cases hm : s.mainPc with
  | joining =>
    by_cases hr : allRetiredB s = true
    · -- join barrier passed: every student exited; force `all_done`
      simp only [stepMain, hm, hr, if_pos, forceTerminal] at h
      injection h with h
      subst h
      have hcnt : countRetired s.students = cfg.num_students := by
        rw [countRetired, ← len, List.countP_eq_length]
        intro a hamem
        exact List.all_eq_true.mp hr a hamem
      refine ⟨len, wait_lo, wait_hi, conserv, fin_count, ?_, ?_, ?_, ?_, ?_,
        students_ok⟩
      · intro _
        exact hcnt
      · simp only [finalPosted] at sem_eq ⊢
        dsimp only
        simp only [hm] at sem_eq
        simp at sem_eq ⊢
        omega
      · intro hd
        exact ⟨rfl, (ta_done hd).2⟩
      · intro _
        exact hcnt
      · intro _
        rfl
    · simp only [stepMain, hm, hr, if_neg] at h
      exact Option.noConfusion h
  | postFinal =>
    -- the unconditional final `sem_post`
    simp only [stepMain, hm] at h
    injection h with h
    subst h
    have hmj : s.mainPc ≠ MainPC.joining := by
      rw [hm]
      exact fun hx => MainPC.noConfusion hx
    refine ⟨len, wait_lo, wait_hi, conserv, fin_count, done_imp, ?_, ta_done,
      fun _ => main_retired hmj, fun _ => main_done hmj, students_ok⟩
    simp only [finalPosted] at sem_eq ⊢
    dsimp only
    simp only [hm] at sem_eq
    simp at sem_eq ⊢
    omega
  | joinTa =>
    by_cases ht : s.ta = TaPC.done
    · simp only [stepMain, hm] at h
      rw [if_pos ht] at h
      injection h with h
      subst h
      have hmj : s.mainPc ≠ MainPC.joining := by
        rw [hm]
        exact fun hx => MainPC.noConfusion hx
      refine ⟨len, wait_lo, wait_hi, conserv, fin_count, done_imp, ?_, ta_done,
        fun _ => main_retired hmj, fun _ => main_done hmj, students_ok⟩
      simp only [finalPosted] at sem_eq ⊢
      dsimp only
      simp only [hm] at sem_eq
      simp at sem_eq ⊢
      omega
    · simp only [stepMain, hm, ht, if_neg] at h
      exact Option.noConfusion h
  | done =>
    simp only [stepMain, hm] at h
    exact Option.noConfusion h

/-- Any step of any thread preserves the invariant. -/
theorem inv_step (cfg : Config) {s s' : SimState} (hs : Inv cfg s)
    (h : Step cfg s s') : Inv cfg s' := by
  obtain ⟨l, hl⟩ := h
  cases l with
  | student i => exact inv_step_student cfg hs i hl
  | ta => exact inv_step_ta cfg hs hl
  | driver => exact inv_step_main cfg hs hl

/-- Every reachable state satisfies the invariant. -/
theorem reachable_inv (cfg : Config) {s : SimState} (h : Reachable cfg s) :
    Inv cfg s := by
  induction h with
  | refl => exact inv_init cfg
  | tail _ hbc ih => exact inv_step cfg ih hbc

/-- A student step never touches the TA's or the driver's program counter. -/
theorem stepStudent_frame (cfg : Config) {s s' : SimState} (i : Nat)
    (h : stepStudent cfg s i = some s') :
    s'.ta = s.ta ∧ s'.mainPc = s.mainPc := by
  cases hget : s.students.get? i with
  | none =>
    simp only [stepStudent, hget] at h
    exact Option.noConfusion h
  | some st =>
    cases hpc : st.pc with
    | working =>
      simp only [stepStudent, hget, hpc] at h
      cases hres : (tryOccupySeat (cfg.num_chairs : Int) s.waiting_students).2 with
      | Admitted =>
        simp only [hres] at h
        injection h with h
        subst h
        exact ⟨rfl, rfl⟩
      | Rejected =>
        simp only [hres] at h
        injection h with h
        subst h
        exact ⟨rfl, rfl⟩
    | posting =>
      simp only [stepStudent, hget, hpc] at h
      injection h with h
      subst h
      exact ⟨rfl, rfl⟩
    | retiring =>
      simp only [stepStudent, hget, hpc] at h
      injection h with h
      subst h
      exact ⟨rfl, rfl⟩
    | retired =>
      simp only [stepStudent, hget, hpc] at h
      exact Option.noConfusion h

/-- A TA step never touches the student list, the driver's program counter,
the `all_done` flag, the seat-admission ghost, or `students_finished`. -/
theorem stepTa_frame {s s' : SimState} (h : stepTa s = some s') :
    s'.students = s.students ∧ s'.mainPc = s.mainPc ∧ s'.all_done = s.all_done
      ∧ s'.admissions = s.admissions
      ∧ s'.students_finished = s.students_finished := by
  cases hta : s.ta with
  | idle =>
    by_cases hsem : s.sem > 0
    · simp only [stepTa, hta, hsem, if_pos] at h
      injection h with h
      subst h
      exact ⟨rfl, rfl, rfl, rfl, rfl⟩
    · simp only [stepTa, hta, hsem, if_neg] at h
      exact Option.noConfusion h
  | checking =>
    simp only [stepTa, hta] at h
    by_cases hcond : s.all_done = true ∧ s.waiting_students = 0
    · rw [if_pos hcond] at h
      injection h with h
      subst h
      exact ⟨rfl, rfl, rfl, rfl, rfl⟩
    · rw [if_neg hcond] at h
      by_cases hwpos : s.waiting_students > 0
      · rw [if_pos hwpos] at h
        injection h with h
        subst h
        exact ⟨rfl, rfl, rfl, rfl, rfl⟩
      · rw [if_neg hwpos] at h
        injection h with h
        subst h
        exact ⟨rfl, rfl, rfl, rfl, rfl⟩
  | done =>
    simp only [stepTa, hta] at h
    exact Option.noConfusion h

/-- A driver step never touches the TA's program counter, the student list,
or any of the shared counters other than the semaphore and `all_done`. -/
theorem stepMain_frame {s s' : SimState} (h : stepMain s = some s') :
    s'.ta = s.ta ∧ s'.students = s.students
      ∧ s'.waiting_students = s.waiting_students
      ∧ s'.students_finished = s.students_finished ∧ s'.helps = s.helps
      ∧ s'.admissions = s.admissions := by
  cases hm : s.mainPc with
  | joining =>
    by_cases hr : allRetiredB s = true
    · simp only [stepMain, hm, hr, if_pos, forceTerminal] at h
      injection h with h
      subst h
      exact ⟨rfl, rfl, rfl, rfl, rfl, rfl⟩
    · simp only [stepMain, hm, hr, if_neg] at h
      exact Option.noConfusion h
  | postFinal =>
    simp only [stepMain, hm] at h
    injection h with h
    subst h
    exact ⟨rfl, rfl, rfl, rfl, rfl, rfl⟩
  | joinTa =>
    by_cases ht : s.ta = TaPC.done
    · simp only [stepMain, hm] at h
      rw [if_pos ht] at h
      injection h with h
      subst h
      exact ⟨rfl, rfl, rfl, rfl, rfl, rfl⟩
    · simp only [stepMain, hm] at h
      rw [if_neg ht] at h
      exact Option.noConfusion h
  | done =>
    simp only [stepMain, hm] at h
    exact Option.noConfusion h

/-- Once the TA has exited, no step of any thread un-exits it. -/
theorem ta_done_persists (cfg : Config) {s s' : SimState}
    (h : Step cfg s s') (hd : s.ta = TaPC.done) : s'.ta = TaPC.done := by
  obtain ⟨l, hl⟩ := h
  cases l with
  | student i => rw [(stepStudent_frame cfg i hl).1, hd]
  | ta =>
    simp only [stepL, stepTa, hd] at hl
    exact Option.noConfusion hl
  | driver => rw [(stepMain_frame hl).1, hd]

/-- Under the invariant, a TA in its check with an empty hallway can only be
there because the driver's final post happened, so `all_done` is set: the
spurious-wake branch of `ta_thread` is unreachable. -/
theorem checking_not_spurious (cfg : Config) {s : SimState} (hs : Inv cfg s)
    (hta : s.ta = TaPC.checking) (hw0 : ¬s.waiting_students > 0)
    (hcond : ¬(s.all_done = true ∧ s.waiting_students = 0)) : False := by
  obtain ⟨len, wait_lo, wait_hi, conserv, fin_count, done_imp, sem_eq, ta_done,
    main_retired, main_done, students_ok⟩ := hs
  have hw : s.waiting_students = 0 := by omega
  have hfp : finalPosted s = true := by
    rw [hta] at sem_eq
    simp at sem_eq
    by_contra hf
    rw [Bool.not_eq_true] at hf
    rw [hf] at sem_eq
    simp at sem_eq
    omega
  have hmj : s.mainPc ≠ MainPC.joining := by
    intro hj
    rw [finalPosted, hj] at hfp
    simp at hfp
  exact hcond ⟨main_done hmj, hw⟩

/-- Every student thread has exited exactly when the retired count is full. -/
theorem allRetiredB_eq_true_iff {cfg : Config} {s : SimState}
    (len : s.students.length = cfg.num_students) :
    allRetiredB s = true ↔ countRetired s.students = cfg.num_students := by
  rw [allRetiredB, List.all_eq_true, countRetired, ← len, List.countP_eq_length]

/-- When every student has exited, none of them is between its seat
increment and its `sem_post`. -/
theorem countPosting_zero_of_retired {s : SimState} (hr : allRetiredB s = true) :
    countPosting s.students = 0 := by
  rw [countPosting, List.countP_eq_zero]
  intro st hmem
  have := List.all_eq_true.mp hr st hmem
  simp only [beq_iff_eq] at this
  rw [this]
  simp

/-- When every student has exited, no student step is enabled. -/
theorem drained_no_student (cfg : Config) {s : SimState}
    (hr : allRetiredB s = true) (i : Nat) : stepStudent cfg s i = none := by
  cases hget : s.students.get? i with
  | none => simp only [stepStudent, hget]
  | some st =>
    have hmem := List.get?_mem hget
    have hpc := List.all_eq_true.mp hr st hmem
    simp only [beq_iff_eq] at hpc
    simp only [stepStudent, hget, hpc]

/-- After the final post, the driver's only remaining step waits for the
TA to exit. -/
theorem drained_no_main {s : SimState} (hf : finalPosted s = true)
    (hnd : s.ta ≠ TaPC.done) : stepMain s = none := by
  rw [finalPosted] at hf
  simp only [Bool.or_eq_true, beq_iff_eq] at hf
  rcases hf with hm | hm
  · simp only [stepMain, hm]
    rw [if_neg hnd]
  · simp only [stepMain, hm]

/-- In the drain phase with the TA at `sem_wait`, the semaphore holds one
token per still-occupied seat plus the driver's final token. -/
theorem drained_sem (cfg : Config) {s : SimState} (hs : Inv cfg s)
    (hr : allRetiredB s = true) (hf : finalPosted s = true)
    (hta : s.ta = TaPC.idle) :
    (s.sem : Int) = s.waiting_students + 1 := by
  obtain ⟨len, wait_lo, wait_hi, conserv, fin_count, done_imp, sem_eq, ta_done,
    main_retired, main_done, students_ok⟩ := hs
  have hp0 := countPosting_zero_of_retired hr
  rw [hta, hf] at sem_eq
  simp at sem_eq
  omega

/-- In the drain phase a step is always available while the TA has not
exited. -/
theorem drain_progress (cfg : Config) {s : SimState} (hs : Inv cfg s)
    (hr : allRetiredB s = true) (hf : finalPosted s = true)
    (hnd : s.ta ≠ TaPC.done) : ∃ s', Step cfg s s' := by
  cases hta : s.ta with
  | idle =>
    have hsem := drained_sem cfg hs hr hf hta
    have hpos : s.sem > 0 := by
      have := hs.wait_lo
      omega
    exact ⟨{ s with sem := s.sem - 1, ta := TaPC.checking },
      ⟨Label.ta, by simp only [stepL, stepTa, hta, hpos, if_pos]⟩⟩
  | checking =>
    by_cases hcond : s.all_done = true ∧ s.waiting_students = 0
    · exact ⟨{ s with ta := TaPC.done },
        ⟨Label.ta, by simp only [stepL, stepTa, hta]; rw [if_pos hcond]⟩⟩
    · by_cases hwpos : s.waiting_students > 0
      · have hstep : stepTa s = some { s with
            waiting_students := s.waiting_students - 1
            helps := s.helps + 1
            ta := TaPC.idle } := by
          simp only [stepTa, hta]
          rw [if_neg hcond, if_pos hwpos]
        exact ⟨_, Label.ta, by simp only [stepL]; exact hstep⟩
      · exact (checking_not_spurious cfg hs hta hwpos hcond).elim
  | done => exact absurd hta hnd

/-- In the drain phase every enabled step is a TA step that strictly
decreases the measure and leaves students and driver in place. -/
theorem drain_decrease (cfg : Config) {s s' : SimState} (hs : Inv cfg s)
    (hr : allRetiredB s = true) (hf : finalPosted s = true)
    (hnd : s.ta ≠ TaPC.done) (h : Step cfg s s') :
    taMeasure s' < taMeasure s ∧ s'.students = s.students
      ∧ s'.mainPc = s.mainPc := by
  obtain ⟨l, hl⟩ := h
  cases l with
  | student i =>
    rw [stepL, drained_no_student cfg hr i] at hl
    exact Option.noConfusion hl
  | driver =>
    rw [stepL, drained_no_main hf hnd] at hl
    exact Option.noConfusion hl
  | ta =>
    rw [stepL] at hl
    cases hta : s.ta with
    | idle =>
      have hsem := drained_sem cfg hs hr hf hta
      have hpos : s.sem > 0 := by
        have := hs.wait_lo
        omega
      simp only [stepTa, hta, hpos, if_pos] at hl
      injection hl with hl
      subst hl
      refine ⟨?_, rfl, rfl⟩
      simp only [taMeasure, hta]
      omega
    | checking =>
      simp only [stepTa, hta] at hl
      by_cases hcond : s.all_done = true ∧ s.waiting_students = 0
      · rw [if_pos hcond] at hl
        injection hl with hl
        subst hl
        refine ⟨?_, rfl, rfl⟩
        simp only [taMeasure, hta]
        omega
      · rw [if_neg hcond] at hl
        by_cases hwpos : s.waiting_students > 0
        · rw [if_pos hwpos] at hl
          injection hl with hl
          subst hl
          refine ⟨?_, rfl, rfl⟩
          simp only [taMeasure, hta]
          have := hs.wait_lo
          omega
        · exact (checking_not_spurious cfg hs hta hwpos hcond).elim
    | done => exact absurd hta hnd

/-- A zero measure means the TA has exited. -/
theorem taMeasure_zero {s : SimState} (h : taMeasure s = 0) :
    s.ta = TaPC.done := by
  cases hta : s.ta <;> simp only [taMeasure, hta] at h ⊢ <;> omega

/-- Bounded liveness of the drain phase: along any interleaving of length at
least the measure, the TA has exited. -/
theorem drain_terminates (cfg : Config) :
    ∀ n : Nat, ∀ s : SimState, Inv cfg s → allRetiredB s = true →
      finalPosted s = true →
      ∀ f : Nat → SimState, f 0 = s → (∀ i, i < n → Step cfg (f i) (f (i + 1))) →
        taMeasure s ≤ n → (f n).ta = TaPC.done := by
  intro n
  induction n with
  | zero =>
    intro s _ _ _ f hf0 _ hle
    rw [hf0]
    exact taMeasure_zero (Nat.le_zero.mp hle)
  | succ n ih =>
    intro s hs hr hf f hf0 hsteps hle
    by_cases hnd : s.ta = TaPC.done
    · -- already exited: exited forever after
      have hall : ∀ i, i ≤ n + 1 → (f i).ta = TaPC.done := by
        intro i
        induction i with
        | zero => intro _; rw [hf0]; exact hnd
        | succ j ihj =>
          intro hj
          exact ta_done_persists cfg (hsteps j (by omega)) (ihj (by omega))
      exact hall (n + 1) (le_refl _)
    · have hstep0 : Step cfg (f 0) (f 1) := hsteps 0 (by omega)
      rw [hf0] at hstep0
      obtain ⟨hdec, hstu, hmpc⟩ := drain_decrease cfg hs hr hf hnd hstep0
      have hinv1 : Inv cfg (f 1) := inv_step cfg hs hstep0
      have hr1 : allRetiredB (f 1) = true := by rw [allRetiredB, hstu]; exact hr
      have hf1 : finalPosted (f 1) = true := by rw [finalPosted, hmpc]; exact hf
      have := ih (f 1) hinv1 hr1 hf1 (fun i => f (i + 1)) rfl
        (fun i hi => hsteps (i + 1) (by omega)) (by omega)
      exact this

/-- The drain phase can actually reach the TA's exit. -/
theorem drain_reaches (cfg : Config) :
    ∀ k : Nat, ∀ s : SimState, Inv cfg s → allRetiredB s = true →
      finalPosted s = true → taMeasure s ≤ k →
      ∃ s', Relation.ReflTransGen (Step cfg) s s' ∧ s'.ta = TaPC.done := by
  intro k
  induction k with
  | zero =>
    intro s _ _ _ hle
    exact ⟨s, Relation.ReflTransGen.refl, taMeasure_zero (Nat.le_zero.mp hle)⟩
  | succ k ih =>
    intro s hs hr hf hle
    by_cases hnd : s.ta = TaPC.done
    · exact ⟨s, Relation.ReflTransGen.refl, hnd⟩
    · obtain ⟨s1, hstep⟩ := drain_progress cfg hs hr hf hnd
      obtain ⟨hdec, hstu, hmpc⟩ := drain_decrease cfg hs hr hf hnd hstep
      obtain ⟨s', hmany, hdone⟩ := ih s1 (inv_step cfg hs hstep)
        (by rw [allRetiredB, hstu]; exact hr)
        (by rw [finalPosted, hmpc]; exact hf) (by omega)
      exact ⟨s', Relation.ReflTransGen.head hstep hmany, hdone⟩

/-- Executing a schedule step by step builds a multi-step derivation. -/
theorem runLabels_trans (cfg : Config) :
    ∀ (ls : List Label) (s s' : SimState), runLabels cfg ls s = some s' →
      Relation.ReflTransGen (Step cfg) s s' := by
  intro ls
  induction ls with
  | nil =>
    intro s s' h
    simp only [runLabels] at h
    injection h with h
    subst h
    exact Relation.ReflTransGen.refl
  | cons l rest ih =>
    intro s s' h
    simp only [runLabels] at h
    cases hl : stepL cfg l s with
    | none =>
      rw [hl] at h
      exact Option.noConfusion h
    | some s1 =>
      rw [hl] at h
      exact Relation.ReflTransGen.head ⟨l, hl⟩ (ih s1 s' h)

/-- A state produced by a concrete schedule from the initial state is
reachable. -/
theorem runLabels_reachable (cfg : Config) (ls : List Label) (s' : SimState)
    (h : runLabels cfg ls (initState cfg) = some s') : Reachable cfg s' :=
  runLabels_trans cfg ls _ s' h

/-- No step of any thread ever resets `all_done`: the flag is monotone. -/
theorem step_all_done_mono (cfg : Config) {s s' : SimState} (l : Label)
    (hl : stepL cfg l s = some s') (hd : s.all_done = true) :
    s'.all_done = true := by
  cases l with
  | ta => rw [(stepTa_frame hl).2.2.1, hd]
  | driver =>
    cases hm : s.mainPc with
    | joining =>
      by_cases hr : allRetiredB s = true
      · simp only [stepL, stepMain, hm, hr, if_pos, forceTerminal] at hl
        injection hl with hl
        subst hl
        rfl
      · simp only [stepL, stepMain, hm, hr, if_neg] at hl
        exact Option.noConfusion hl
    | postFinal =>
      simp only [stepL, stepMain, hm] at hl
      injection hl with hl
      subst hl
      exact hd
    | joinTa =>
      by_cases ht : s.ta = TaPC.done
      · simp only [stepL, stepMain, hm] at hl
        rw [if_pos ht] at hl
        injection hl with hl
        subst hl
        exact hd
      · simp only [stepL, stepMain, hm] at hl
        rw [if_neg ht] at hl
        exact Option.noConfusion hl
    | done =>
      simp only [stepL, stepMain, hm] at hl
      exact Option.noConfusion hl
  | student i =>
    cases hget : s.students.get? i with
    | none =>
      simp only [stepL, stepStudent, hget] at hl
      exact Option.noConfusion hl
    | some st =>
      cases hpc : st.pc with
      | working =>
        simp only [stepL, stepStudent, hget, hpc] at hl
        cases hres : (tryOccupySeat (cfg.num_chairs : Int) s.waiting_students).2 with
        | Admitted =>
          simp only [hres] at hl
          injection hl with hl
          subst hl
          exact hd
        | Rejected =>
          simp only [hres] at hl
          injection hl with hl
          subst hl
          exact hd
      | posting =>
        simp only [stepL, stepStudent, hget, hpc] at hl
        injection hl with hl
        subst hl
        exact hd
      | retiring =>
        simp only [stepL, stepStudent, hget, hpc] at hl
        injection hl with hl
        subst hl
        dsimp only
        by_cases hb : s.students_finished + 1 = (cfg.num_students : Int)
        · rw [if_pos hb]
        · rw [if_neg hb]
          exact hd
      | retired =>
        simp only [stepL, stepStudent, hget, hpc] at hl
        exact Option.noConfusion hl

/-- The only two transitions able to raise `all_done` are the finish section
of the last finishing student (`students_finished` reaching `num_students`)
and the driver's forced set after the join barrier. -/
theorem step_all_done_flip (cfg : Config) {s s' : SimState} (l : Label)
    (hl : stepL cfg l s = some s') (h0 : s.all_done = false)
    (h1 : s'.all_done = true) :
    (∃ i st, l = Label.student i ∧ s.students.get? i = some st
        ∧ st.pc = StPC.retiring
        ∧ s.students_finished + 1 = (cfg.num_students : Int))
      ∨ (l = Label.driver ∧ s.mainPc = MainPC.joining ∧ allRetiredB s = true) := by
  cases l with
  | ta =>
    rw [(stepTa_frame hl).2.2.1, h0] at h1
    exact Bool.noConfusion h1
  | driver =>
    cases hm : s.mainPc with
    | joining =>
      by_cases hr : allRetiredB s = true
      · exact Or.inr ⟨rfl, rfl, hr⟩
      · simp only [stepL, stepMain, hm, hr, if_neg] at hl
        exact Option.noConfusion hl
    | postFinal =>
      simp only [stepL, stepMain, hm] at hl
      injection hl with hl
      subst hl
      rw [h0] at h1
      exact Bool.noConfusion h1
    | joinTa =>
      by_cases ht : s.ta = TaPC.done
      · simp only [stepL, stepMain, hm] at hl
        rw [if_pos ht] at hl
        injection hl with hl
        subst hl
        rw [h0] at h1
        exact Bool.noConfusion h1
      · simp only [stepL, stepMain, hm] at hl
        rw [if_neg ht] at hl
        exact Option.noConfusion hl
    | done =>
      simp only [stepL, stepMain, hm] at hl
      exact Option.noConfusion hl
  | student i =>
    cases hget : s.students.get? i with
    | none =>
      simp only [stepL, stepStudent, hget] at hl
      exact Option.noConfusion hl
    | some st =>
      cases hpc : st.pc with
      | working =>
        simp only [stepL, stepStudent, hget, hpc] at hl
        cases hres : (tryOccupySeat (cfg.num_chairs : Int) s.waiting_students).2 with
        | Admitted =>
          simp only [hres] at hl
          injection hl with hl
          subst hl
          rw [h0] at h1
          exact Bool.noConfusion h1
        | Rejected =>
          simp only [hres] at hl
          injection hl with hl
          subst hl
          rw [h0] at h1
          exact Bool.noConfusion h1
      | posting =>
        simp only [stepL, stepStudent, hget, hpc] at hl
        injection hl with hl
        subst hl
        rw [h0] at h1
        exact Bool.noConfusion h1
      | retiring =>
        simp only [stepL, stepStudent, hget, hpc] at hl
        injection hl with hl
        subst hl
        dsimp only at h1
        by_cases hb : s.students_finished + 1 = (cfg.num_students : Int)
        · exact Or.inl ⟨i, st, rfl, hget, hpc, hb⟩
        · rw [if_neg hb, h0] at h1
          exact Bool.noConfusion h1
      | retired =>
        simp only [stepL, stepStudent, hget, hpc] at hl
        exact Option.noConfusion hl

/-- The smallest contended configuration: one student, one chair. -/
def cfg11 : Config := ⟨1, 1⟩

/-- One student, zero chairs: the zero-capacity boundary configuration. -/
def cfg10 : Config := ⟨1, 0⟩

/-- State of the `cfg11` system after the schedule
`[student 0, student 0, student 0]`: the student took the seat, posted, and
was then rejected on its second attempt because the TA had not yet been
scheduled to drain the seat. -/
def rejectedState : SimState :=
  ⟨1, 0, false, 1, TaPC.idle, [⟨StPC.working, 2, 1, 1⟩], MainPC.joining, 1, 0⟩

/-- A schedule for `cfg11` in which the TA drains every wake before the
student's next attempt: every attempt is admitted, the student retires
after its three cycles, the driver forces the final wake, and the TA
exits. -/
def servedSchedule : List Label :=
  [Label.student 0, Label.student 0, Label.ta, Label.ta,
   Label.student 0, Label.student 0, Label.ta, Label.ta,
   Label.student 0, Label.student 0, Label.ta, Label.ta,
   Label.student 0, Label.driver, Label.driver, Label.ta, Label.ta,
   Label.driver]

/-- Final state of `servedSchedule`: three admissions, three helps, no
rejection, student retired, TA exited, everything drained. -/
def servedFinal : SimState :=
  ⟨0, 1, true, 0, TaPC.done, [⟨StPC.retired, 3, 3, 0⟩], MainPC.done, 3, 3⟩

/-- State of the `cfg11` system just before the student's finish section in
`servedSchedule`. -/
def preRetire : SimState :=
  ⟨0, 0, false, 0, TaPC.idle, [⟨StPC.retiring, 3, 3, 0⟩], MainPC.joining, 3, 3⟩

/-- State right after the student's finish section: the last finisher set
`all_done`. -/
def postRetire : SimState :=
  ⟨0, 1, true, 0, TaPC.idle, [⟨StPC.retired, 3, 3, 0⟩], MainPC.joining, 3, 3⟩

/-- State after the driver's (idempotent) forced set of `all_done`. -/
def forcedState : SimState :=
  ⟨0, 1, true, 0, TaPC.idle, [⟨StPC.retired, 3, 3, 0⟩], MainPC.postFinal, 3, 3⟩

/-- A complete schedule for the zero-capacity configuration `cfg10`: all
three attempts are rejected, the student retires, the driver forces the
final wake, the TA's very first wake hits the exit branch. -/
def zeroCapSchedule : List Label :=
  [Label.student 0, Label.student 0, Label.student 0, Label.student 0,
   Label.driver, Label.driver, Label.ta, Label.ta, Label.driver]

/-- Final state of `zeroCapSchedule`: no admission ever happened, no help
was ever given, the TA woke exactly once — on the forced token — and
exited. -/
def zeroCapFinal : SimState :=
  ⟨0, 1, true, 0, TaPC.done, [⟨StPC.retired, 3, 0, 3⟩], MainPC.done, 0, 0⟩

/-- Run invariant of prompt-drain schedules: no rejection has ever been
recorded, and the ghost admission count tracks the cycle count (one ahead
exactly while a `sem_post` is pending). -/
def promptInv (s : SimState) : Prop :=
  ∀ st ∈ s.students, st.rejects = 0
    ∧ (st.pc = StPC.posting → st.admits = st.cycles + 1)
    ∧ (st.pc ≠ StPC.posting → st.admits = st.cycles)

/-- The initial `cfg11` state satisfies the prompt-drain run invariant. -/
theorem promptInv_init : promptInv (initState cfg11) := by
  intro st hmem
  rw [List.eq_of_mem_replicate hmem]
  exact ⟨rfl, fun hx => StPC.noConfusion hx, fun _ => rfl⟩

/-- Any step whose admission attempts (if any) happen with the hallway
already drained preserves the prompt-drain run invariant: with one chair,
an attempt from an empty hallway is always admitted. -/
theorem promptInv_step {s s' : SimState} (l : Label)
    (hl : stepL cfg11 l s = some s')
    (hdrain : ∀ st, l = Label.student 0 → s.students.get? 0 = some st →
        st.pc = StPC.working → s.waiting_students = 0)
    (hlen : s.students.length = 1)
    (hp : promptInv s) : promptInv s' := by
  cases l with
  | ta =>
    have hfr := (stepTa_frame hl).1
    intro st hmem
    rw [hfr] at hmem
    exact hp st hmem
  | driver =>
    have hfr := (stepMain_frame hl).2.1
    intro st hmem
    rw [hfr] at hmem
    exact hp st hmem
  | student i =>
    cases hget : s.students.get? i with
    | none =>
      simp only [stepL, stepStudent, hget] at hl
      exact Option.noConfusion hl
    | some st =>
      have hi0 : i = 0 := by
        obtain ⟨hbound, _⟩ := List.get?_eq_some.mp hget
        omega
      subst hi0
      obtain ⟨hrej0, hpost, hnpost⟩ := hp st (List.get?_mem hget)
      cases hpc : st.pc with
      | working =>
        have hw0 : s.waiting_students = 0 := hdrain st rfl hget hpc
        have hlt : s.waiting_students < (cfg11.num_chairs : Int) := by
          rw [hw0]
          decide
        simp only [stepL, stepStudent, hget, hpc, tryOccupySeat, hlt,
          if_pos] at hl
        injection hl with hl
        subst hl
        intro a ha
        dsimp only at ha
        rcases List.mem_or_eq_of_mem_set ha with hmem' | rfl
        · exact hp a hmem'
        · have hadm := hnpost (by
            rw [hpc]
            exact fun hx => StPC.noConfusion hx)
          refine ⟨hrej0, fun _ => ?_, fun hne => absurd rfl hne⟩
          dsimp only
          omega
      | posting =>
        simp only [stepL, stepStudent, hget, hpc] at hl
        injection hl with hl
        subst hl
        intro a ha
        dsimp only at ha
        rcases List.mem_or_eq_of_mem_set ha with hmem' | rfl
        · exact hp a hmem'
        · have hadm := hpost hpc
          refine ⟨hrej0, ?_, fun _ => ?_⟩
          · intro hx
            exfalso
            dsimp only at hx
            by_cases hc : st.cycles + 1 < HELP_REQUESTS_PER_STUDENT
            · rw [if_pos hc] at hx
              exact StPC.noConfusion hx
            · rw [if_neg hc] at hx
              exact StPC.noConfusion hx
          · dsimp only
            omega
      | retiring =>
        simp only [stepL, stepStudent, hget, hpc] at hl
        injection hl with hl
        subst hl
        intro a ha
        dsimp only at ha
        rcases List.mem_or_eq_of_mem_set ha with hmem' | rfl
        · exact hp a hmem'
        · have hadm := hnpost (by
            rw [hpc]
            exact fun hx => StPC.noConfusion hx)
          exact ⟨hrej0, fun hx => StPC.noConfusion hx, fun _ => hadm⟩
      | retired =>
        simp only [stepL, stepStudent, hget, hpc] at hl
        exact Option.noConfusion hl

/-- A two-state trace realising one prompt-drain admission attempt from the
initial `cfg11` state: the attempt is admitted. -/
def attemptTrace : Nat → SimState := fun i =>
  match i with
  | 0 => initState cfg11
  | _ => ⟨1, 0, false, 0, TaPC.idle, [⟨StPC.posting, 0, 1, 0⟩],
      MainPC.joining, 1, 0⟩

/-- C1: the TA's loop exits exactly when, under the lock, `all_done` is set
and `waiting_students == 0` (sole exit transition, both conjuncts required);
in every reachable state the TA has exited only if every student has
retired; and from any reachable state in which every student has retired
and the driver has posted the forced final wake, the TA does exit — a
terminating continuation exists and every interleaving of length at least
`taMeasure` has reached the exit. -/
theorem server_exit_iff_all_retired (cfg : Config) :
    (∀ s s' : SimState, stepTa s = some s' → s'.ta = TaPC.done →
        s.ta ≠ TaPC.done → s.all_done = true ∧ s.waiting_students = 0)
    ∧ (∀ s : SimState, s.ta = TaPC.checking → s.all_done = true →
        s.waiting_students = 0 → stepTa s = some { s with ta := TaPC.done })
    ∧ (∀ s : SimState, Reachable cfg s → s.ta = TaPC.done →
        allRetiredB s = true)
    ∧ (∀ s : SimState, Reachable cfg s → allRetiredB s = true →
        finalPosted s = true →
        (∃ s', Relation.ReflTransGen (Step cfg) s s' ∧ s'.ta = TaPC.done)
        ∧ ∀ (n : Nat) (f : Nat → SimState), f 0 = s →
            (∀ i, i < n → Step cfg (f i) (f (i + 1))) → taMeasure s ≤ n →
            (f n).ta = TaPC.done) := by
  refine ⟨?_, ?_, ?_, ?_⟩
  · intro s s' h hdone hne
    cases hta : s.ta with
    | idle =>
      by_cases hsem : s.sem > 0
      · simp only [stepTa, hta, hsem, if_pos] at h
        injection h with h
        subst h
        exact TaPC.noConfusion hdone
      · simp only [stepTa, hta, hsem, if_neg] at h
        exact Option.noConfusion h
    | checking =>
      simp only [stepTa, hta] at h
      by_cases hcond : s.all_done = true ∧ s.waiting_students = 0
      · exact hcond
      · rw [if_neg hcond] at h
        by_cases hwpos : s.waiting_students > 0
        · rw [if_pos hwpos] at h
          injection h with h
          subst h
          exact TaPC.noConfusion hdone
        · rw [if_neg hwpos] at h
          injection h with h
          subst h
          exact TaPC.noConfusion hdone
    | done => exact absurd hta hne
  · intro s hta hd hw
    simp only [stepTa, hta]
    rw [if_pos ⟨hd, hw⟩]
  · intro s hr hd
    have hi := reachable_inv cfg hr
    exact (allRetiredB_eq_true_iff hi.len).mpr (hi.done_imp (hi.ta_done hd).1)
  · intro s hr hret hfp
    have hi := reachable_inv cfg hr
    exact ⟨drain_reaches cfg (taMeasure s) s hi hret hfp (le_refl _),
      fun n f hf0 hsteps hle =>
        drain_terminates cfg n s hi hret hfp f hf0 hsteps hle⟩

/-- Witness for C1 at the concrete `cfg11` run: the final state of
`servedSchedule` has an exited TA and every student retired. -/
theorem server_exit_iff_all_retired_witness :
    servedFinal.ta = TaPC.done ∧ allRetiredB servedFinal = true :=
  ⟨rfl, (server_exit_iff_all_retired cfg11).2.2.1 servedFinal
    (runLabels_reachable cfg11 servedSchedule servedFinal (by decide)) rfl⟩

/-- C2: in every reachable state of every run the hallway occupancy
satisfies `0 <= waiting_students <= num_chairs`. -/
theorem occupancy_bounds (cfg : Config) {s : SimState} (h : Reachable cfg s) :
    0 ≤ s.waiting_students ∧ s.waiting_students ≤ (cfg.num_chairs : Int) :=
  ⟨(reachable_inv cfg h).wait_lo, (reachable_inv cfg h).wait_hi⟩

/-- Witness for C2 at the concrete reachable state `rejectedState` with one
occupied seat. -/
theorem occupancy_bounds_witness :
    0 ≤ rejectedState.waiting_students
      ∧ rejectedState.waiting_students ≤ (cfg11.num_chairs : Int) :=
  occupancy_bounds cfg11 (runLabels_reachable cfg11
    [Label.student 0, Label.student 0, Label.student 0] rejectedState
    (by decide))

/-- C3: the admission critical section `tryOccupySeat` returns `Admitted`
exactly when `waiting_students < num_chairs`, increments the count by one
on admission, leaves it unchanged on rejection, and the enclosing student
step is always enabled (it never blocks once it holds the lock). -/
theorem tryOccupySeat_spec (cfg : Config) (s : SimState) (num_chairs w : Int) :
    ((tryOccupySeat num_chairs w).2 = AdmitResult.Admitted ↔ w < num_chairs)
    ∧ ((tryOccupySeat num_chairs w).2 = AdmitResult.Admitted →
        (tryOccupySeat num_chairs w).1 = w + 1)
    ∧ ((tryOccupySeat num_chairs w).2 = AdmitResult.Rejected →
        (tryOccupySeat num_chairs w).1 = w)
    ∧ (∀ i st, s.students.get? i = some st → st.pc = StPC.working →
        stepStudent cfg s i ≠ none) := by
  refine ⟨?_, ?_, ?_, ?_⟩
  · by_cases hw : w < num_chairs <;> simp [tryOccupySeat, hw]
  · intro hadm
    by_cases hw : w < num_chairs <;> simp [tryOccupySeat, hw] at hadm ⊢
  · intro hrej
    by_cases hw : w < num_chairs <;> simp [tryOccupySeat, hw] at hrej ⊢
  · intro i st hget hpc
    simp only [stepStudent, hget, hpc]
    cases hres : (tryOccupySeat (cfg.num_chairs : Int) s.waiting_students).2 <;>
      simp [hres]

/-- Witness for C3 at the concrete inputs `num_chairs = 1, w = 0` and the
initial state of `cfg11`. -/
theorem tryOccupySeat_spec_witness :
    ((tryOccupySeat 1 0).2 = AdmitResult.Admitted ↔ (0 : Int) < 1)
    ∧ stepStudent cfg11 (initState cfg11) 0 ≠ none :=
  ⟨(tryOccupySeat_spec cfg11 (initState cfg11) 1 0).1,
   (tryOccupySeat_spec cfg11 (initState cfg11) 1 0).2.2.2 0
     ⟨StPC.working, 0, 0, 0⟩ (by decide) rfl⟩

/-- C4: conservation law — in every reachable state the number of
successful admissions equals the number of TA `releaseSeat` decrements
plus the seats still occupied, and when the TA has exited, the occupancy
is exactly 0 (so releases = admissions at exit). -/
theorem admissions_conservation (cfg : Config) {s : SimState}
    (h : Reachable cfg s) :
    (s.admissions : Int) = (s.helps : Int) + s.waiting_students
    ∧ (s.ta = TaPC.done → s.waiting_students = 0
        ∧ (s.admissions : Int) = (s.helps : Int)) := by
  have hi := reachable_inv cfg h
  have hc := hi.conserv
  refine ⟨by omega, ?_⟩
  intro hd
  have hz := (hi.ta_done hd).2
  exact ⟨hz, by omega⟩

/-- Witness for C4 at the final state of the concrete `cfg11` run
(3 admissions, 3 helps, 0 occupied, TA exited). -/
theorem admissions_conservation_witness :
    ((servedFinal.admissions : Int)
        = (servedFinal.helps : Int) + servedFinal.waiting_students)
    ∧ (servedFinal.ta = TaPC.done → servedFinal.waiting_students = 0
        ∧ (servedFinal.admissions : Int) = (servedFinal.helps : Int)) :=
  admissions_conservation cfg11
    (runLabels_reachable cfg11 servedSchedule servedFinal (by decide))

/-- C5: the `all_done` flag is monotone — no step of any thread resets it —
and the only transitions able to raise it are the finish section of the
student whose increment makes `students_finished` reach `num_students`,
and the driver's forced set after its join barrier (which requires every
student to have retired). -/
theorem terminal_monotone_and_setters (cfg : Config) {s s' : SimState}
    (l : Label) (hl : stepL cfg l s = some s') :
    (s.all_done = true → s'.all_done = true)
    ∧ (s.all_done = false → s'.all_done = true →
        (∃ i st, l = Label.student i ∧ s.students.get? i = some st
            ∧ st.pc = StPC.retiring
            ∧ s.students_finished + 1 = (cfg.num_students : Int))
          ∨ (l = Label.driver ∧ s.mainPc = MainPC.joining
              ∧ allRetiredB s = true)) :=
  ⟨fun hd => step_all_done_mono cfg l hl hd,
   fun h0 h1 => step_all_done_flip cfg l hl h0 h1⟩

/-- Witness for C5 at the concrete driver step that re-sets the already-set
flag: monotonicity keeps it `true`. -/
theorem terminal_monotone_and_setters_witness :
    forcedState.all_done = true :=
  (terminal_monotone_and_setters cfg11 Label.driver
    (show stepL cfg11 Label.driver postRetire = some forcedState by decide)).1
    rfl

/-- C6: the shutdown coordinator's flag operation (lines 137-139 of
`TA_Sim.c`) is idempotent: a second application changes nothing, an
application to a state whose flag is already set is the identity, and the
operation touches neither `waiting_students` nor `students_finished`. -/
theorem forceTerminal_idempotent (s : SimState) :
    forceTerminal (forceTerminal s) = forceTerminal s
    ∧ (s.all_done = true → forceTerminal s = s)
    ∧ (forceTerminal s).waiting_students = s.waiting_students
    ∧ (forceTerminal s).students_finished = s.students_finished
    ∧ (forceTerminal s).all_done = true := by
  refine ⟨rfl, ?_, rfl, rfl, rfl⟩
  intro hd
  cases s with
  | mk w f a se t st m adm hlp =>
    simp only [forceTerminal]
    rw [show a = true from hd]

/-- Witness for C6 at the concrete state in which the last student already
set the flag. -/
theorem forceTerminal_idempotent_witness :
    forceTerminal (forceTerminal postRetire) = forceTerminal postRetire
    ∧ forceTerminal postRetire = postRetire :=
  ⟨(forceTerminal_idempotent postRetire).1,
   (forceTerminal_idempotent postRetire).2.1 rfl⟩

/-- C7: startup validation — the configuration is rejected with exit
status 1 exactly when `num_students <= 0` or `num_chairs < 0` (before any
thread exists, since `checkConfig` models the check at TA_Sim.c lines
63-66, which precedes every `pthread_create`), and `num_chairs = 0` is
accepted whenever `num_students` is positive. -/
theorem config_validation (ns nc : Int) :
    (checkConfig ns nc = Except.error 1 ↔ ns ≤ 0 ∨ nc < 0)
    ∧ (0 < ns ∧ 0 ≤ nc → checkConfig ns nc = Except.ok ⟨ns.toNat, nc.toNat⟩)
    ∧ (0 < ns → checkConfig ns 0 = Except.ok ⟨ns.toNat, 0⟩) := by
  refine ⟨?_, ?_, ?_⟩
  · by_cases hcond : ns ≤ 0 ∨ nc < 0 <;> simp [checkConfig, hcond]
  · intro hok
    have hcond : ¬(ns ≤ 0 ∨ nc < 0) := by omega
    simp [checkConfig, hcond]
  · intro h1
    have hcond : ¬(ns ≤ 0 ∨ (0 : Int) < 0) := by omega
    simp [checkConfig, hcond]
    omega

/-- Witness for C7 at the concrete inputs: zero students rejected, negative
chairs rejected, three students with zero chairs accepted. -/
theorem config_validation_witness :
    checkConfig 0 5 = Except.error 1
    ∧ checkConfig 3 (-1) = Except.error 1
    ∧ checkConfig 3 0 = Except.ok ⟨3, 0⟩ :=
  ⟨(config_validation 0 5).1.mpr (by decide),
   (config_validation 3 (-1)).1.mpr (by decide),
   (config_validation 3 0).2.2 (by decide)⟩

/-- With zero chairs no admission and no help can ever be recorded. -/
theorem zero_capacity_ghosts (cfg : Config) (hc : cfg.num_chairs = 0)
    {s : SimState} (h : Reachable cfg s) :
    s.admissions = 0 ∧ s.helps = 0 := by
  induction h with
  | refl => exact ⟨rfl, rfl⟩
  | tail hab hstep ih =>
    rename_i b c
    obtain ⟨ha, hh⟩ := ih
    have hib := reachable_inv cfg hab
    obtain ⟨l, hl⟩ := hstep
    cases l with
    | student i =>
      cases hget : b.students.get? i with
      | none =>
        simp only [stepL, stepStudent, hget] at hl
        exact Option.noConfusion hl
      | some st =>
        cases hpc : st.pc with
        | working =>
          have hw : ¬b.waiting_students < (cfg.num_chairs : Int) := by
            have := hib.wait_lo
            rw [hc]
            push_cast
            omega
          simp only [stepL, stepStudent, hget, hpc, tryOccupySeat, hw,
            if_neg] at hl
          injection hl with hl
          subst hl
          exact ⟨ha, hh⟩
        | posting =>
          simp only [stepL, stepStudent, hget, hpc] at hl
          injection hl with hl
          subst hl
          exact ⟨ha, hh⟩
        | retiring =>
          simp only [stepL, stepStudent, hget, hpc] at hl
          injection hl with hl
          subst hl
          exact ⟨ha, hh⟩
        | retired =>
          simp only [stepL, stepStudent, hget, hpc] at hl
          exact Option.noConfusion hl
    | ta =>
      cases hta : b.ta with
      | idle =>
        by_cases hsem : b.sem > 0
        · simp only [stepL, stepTa, hta, hsem, if_pos] at hl
          injection hl with hl
          subst hl
          exact ⟨ha, hh⟩
        · simp only [stepL, stepTa, hta, hsem, if_neg] at hl
          exact Option.noConfusion hl
      | checking =>
        simp only [stepL, stepTa, hta] at hl
        by_cases hcond : b.all_done = true ∧ b.waiting_students = 0
        · rw [if_pos hcond] at hl
          injection hl with hl
          subst hl
          exact ⟨ha, hh⟩
        · rw [if_neg hcond] at hl
          by_cases hwpos : b.waiting_students > 0
          · exfalso
            have h2 := hib.wait_hi
            rw [hc] at h2
            push_cast at h2
            omega
          · rw [if_neg hwpos] at hl
            injection hl with hl
            subst hl
            exact ⟨ha, hh⟩
      | done =>
        simp only [stepL, stepTa, hta] at hl
        exact Option.noConfusion hl
    | driver =>
      obtain ⟨_, _, _, _, hh', ha'⟩ := stepMain_frame hl
      exact ⟨by rw [ha']; exact ha, by rw [hh']; exact hh⟩

/-- C8: with `num_chairs = 0`, in every reachable state of every run the
hallway is empty, the admission check rejects, the TA has never helped
anyone, before the driver's forced final post the TA has never even woken
(the semaphore is still 0 and the TA sits at `sem_wait`), and whenever the
TA does run its check it exits. -/
theorem zero_capacity_run (cfg : Config) (hc : cfg.num_chairs = 0)
    {s : SimState} (h : Reachable cfg s) :
    s.waiting_students = 0
    ∧ (tryOccupySeat (cfg.num_chairs : Int) s.waiting_students).2
        = AdmitResult.Rejected
    ∧ s.helps = 0
    ∧ (finalPosted s = false → s.sem = 0 ∧ s.ta = TaPC.idle)
    ∧ (s.ta = TaPC.checking → stepTa s = some { s with ta := TaPC.done }) := by
  have hi := reachable_inv cfg h
  obtain ⟨ha, hh⟩ := zero_capacity_ghosts cfg hc h
  have hw0 : s.waiting_students = 0 := by
    have h1 := hi.wait_lo
    have h2 := hi.wait_hi
    rw [hc] at h2
    push_cast at h2
    omega
  have hsem := hi.sem_eq
  rw [ha, hh] at hsem
  refine ⟨hw0, ?_, hh, ?_, ?_⟩
  · rw [hw0, hc]
    norm_num [tryOccupySeat]
  · intro hfp
    rw [hfp] at hsem
    simp at hsem
    refine ⟨by omega, ?_⟩
    cases hta : s.ta with
    | idle => rfl
    | checking =>
      exfalso
      rw [hta] at hsem
      simp at hsem
    | done =>
      exfalso
      rw [hta] at hsem
      simp at hsem
  · intro hta
    have hdone : s.all_done = true := by
      rw [hta] at hsem
      simp at hsem
      by_cases hfp : finalPosted s = true
      · have hmj : s.mainPc ≠ MainPC.joining := by
          intro hj
          rw [finalPosted, hj] at hfp
          simp at hfp
        exact hi.main_done hmj
      · exfalso
        rw [Bool.not_eq_true] at hfp
        rw [hfp] at hsem
        simp at hsem
    simp only [stepTa, hta]
    rw [if_pos ⟨hdone, hw0⟩]

/-- Witness for C8 at the final state of the concrete zero-capacity run. -/
theorem zero_capacity_run_witness :
    zeroCapFinal.waiting_students = 0
    ∧ (tryOccupySeat (cfg10.num_chairs : Int) zeroCapFinal.waiting_students).2
        = AdmitResult.Rejected
    ∧ zeroCapFinal.helps = 0
    ∧ (finalPosted zeroCapFinal = false →
        zeroCapFinal.sem = 0 ∧ zeroCapFinal.ta = TaPC.idle)
    ∧ (zeroCapFinal.ta = TaPC.checking →
        stepTa zeroCapFinal = some { zeroCapFinal with ta := TaPC.done }) :=
  zero_capacity_run cfg10 rfl
    (runLabels_reachable cfg10 zeroCapSchedule zeroCapFinal (by decide))

/-- C9, counterexample: with one student and one chair the student's second
attempt can return `Rejected` — after the schedule
`[student 0, student 0, student 0]` (admission, post, second attempt) the
seat is still occupied because the TA was never scheduled, so the
reachable state `rejectedState` records one rejection. -/
theorem single_client_can_be_rejected :
    runLabels cfg11 [Label.student 0, Label.student 0, Label.student 0]
        (initState cfg11) = some rejectedState
    ∧ Reachable cfg11 rejectedState
    ∧ rejectedState.students.get? 0 = some ⟨StPC.working, 2, 1, 1⟩
    ∧ ¬∀ st ∈ rejectedState.students, st.rejects = 0 :=
  ⟨by decide,
   runLabels_reachable cfg11
     [Label.student 0, Label.student 0, Label.student 0] rejectedState
     (by decide),
   by decide, by decide⟩

/-- C9, amended: with one student and one chair, (1) under EVERY schedule
in which each of the client's admission attempts happens with the hallway
already drained (`waiting_students = 0` at every attempt — the TA consumed
the previous wake and released the seat before the next attempt), the
client accumulates no rejection, and at retirement it has completed
exactly `K = 3` cycles with 3 admissions (likewise at the finish section);
(2) from any reachable state where every student has retired, the forced
final post happened and the hallway is drained, the TA exits within one
wake cycle — one `sem_wait` plus one check, i.e. two atomic steps — along
every interleaving; (3) the concrete schedule `servedSchedule` belongs to
this class and realises the outcome. -/
theorem single_client_prompt_drain :
    (∀ (n : Nat) (f : Nat → SimState) (ls : Nat → Label),
        f 0 = initState cfg11 →
        (∀ i, i < n → stepL cfg11 (ls i) (f i) = some (f (i + 1))) →
        (∀ i st, i < n → ls i = Label.student 0 →
            (f i).students.get? 0 = some st → st.pc = StPC.working →
            (f i).waiting_students = 0) →
        ∀ st ∈ (f n).students,
          st.rejects = 0
          ∧ (st.pc = StPC.retired → st.cycles = 3 ∧ st.admits = 3)
          ∧ (st.pc = StPC.retiring → st.cycles = 3 ∧ st.admits = 3))
    ∧ (∀ s : SimState, Reachable cfg11 s → allRetiredB s = true →
        finalPosted s = true → s.waiting_students = 0 →
        ∀ f : Nat → SimState, f 0 = s →
          (∀ i, i < 2 → Step cfg11 (f i) (f (i + 1))) →
          (f 2).ta = TaPC.done)
    ∧ runLabels cfg11 servedSchedule (initState cfg11) = some servedFinal
    ∧ servedFinal.students = [⟨StPC.retired, 3, 3, 0⟩]
    ∧ servedFinal.ta = TaPC.done ∧ servedFinal.waiting_students = 0 := by
  refine ⟨?_, ?_, by decide, rfl, rfl, rfl⟩
  · intro n f ls hf0 hsteps hdrain
    have hreach : ∀ i, i ≤ n → Reachable cfg11 (f i) := by
      intro i
      induction i with
      | zero =>
        intro _
        rw [hf0]
        exact Relation.ReflTransGen.refl
      | succ j ihj =>
        intro hj
        exact Relation.ReflTransGen.tail (ihj (by omega))
          ⟨ls j, hsteps j (by omega)⟩
    have hpi : ∀ i, i ≤ n → promptInv (f i) := by
      intro i
      induction i with
      | zero =>
        intro _
        rw [hf0]
        exact promptInv_init
      | succ j ihj =>
        intro hj
        have hlen : (f j).students.length = 1 :=
          (reachable_inv cfg11 (hreach j (by omega))).len
        exact promptInv_step (ls j) (hsteps j (by omega))
          (fun st hls hget hpc => hdrain j st (by omega) hls hget hpc)
          hlen (ihj (by omega))
    intro st hmem
    obtain ⟨h1, _, h3⟩ := hpi n (le_refl n) st hmem
    obtain ⟨_, _, _, hc_r, hc_d⟩ :=
      (reachable_inv cfg11 (hreach n (le_refl n))).students_ok st hmem
    refine ⟨h1, ?_, ?_⟩
    · intro hret
      have hcyc := hc_d hret
      have hadm := h3 (by
        rw [hret]
        exact fun hx => StPC.noConfusion hx)
      exact ⟨hcyc, by rw [hadm]; exact hcyc⟩
    · intro hret
      have hcyc := hc_r hret
      have hadm := h3 (by
        rw [hret]
        exact fun hx => StPC.noConfusion hx)
      exact ⟨hcyc, by rw [hadm]; exact hcyc⟩
  · intro s hr hret hfp hw0 f hf0 hsteps
    have hb : taMeasure s ≤ 2 := by
      have ht0 : s.waiting_students.toNat = 0 := by
        rw [hw0]
        rfl
      cases hta : s.ta <;> simp only [taMeasure, hta] <;> omega
    exact drain_terminates cfg11 2 s (reachable_inv cfg11 hr) hret hfp
      f hf0 hsteps hb

/-- Witness for the amended C9 at the concrete one-step prompt-drain trace
`attemptTrace`: the attempt from the drained initial hallway is admitted
and records no rejection. -/
theorem single_client_prompt_drain_witness :
    (⟨StPC.posting, 0, 1, 0⟩ : StudentState).rejects = 0
    ∧ ((⟨StPC.posting, 0, 1, 0⟩ : StudentState).pc = StPC.retired →
        (⟨StPC.posting, 0, 1, 0⟩ : StudentState).cycles = 3
        ∧ (⟨StPC.posting, 0, 1, 0⟩ : StudentState).admits = 3)
    ∧ ((⟨StPC.posting, 0, 1, 0⟩ : StudentState).pc = StPC.retiring →
        (⟨StPC.posting, 0, 1, 0⟩ : StudentState).cycles = 3
        ∧ (⟨StPC.posting, 0, 1, 0⟩ : StudentState).admits = 3) :=
  single_client_prompt_drain.1 1 attemptTrace (fun _ => Label.student 0)
    rfl
    (fun i hi => by
      have h0 : i = 0 := by omega
      subst h0
      decide)
    (fun i st hi hls hget hpc => by
      have h0 : i = 0 := by omega
      subst h0
      rfl)
    ⟨StPC.posting, 0, 1, 0⟩ (by decide)

/-- C10: in every reachable state `students_finished` lies between 0 and
`num_students`, and whenever `all_done` is set, `students_finished` equals
`num_students`. -/
theorem finished_bounds (cfg : Config) {s : SimState} (h : Reachable cfg s) :
    0 ≤ s.students_finished
    ∧ s.students_finished ≤ (cfg.num_students : Int)
    ∧ (s.all_done = true →
        s.students_finished = (cfg.num_students : Int)) := by
  have hi := reachable_inv cfg h
  have hfc := hi.fin_count
  have hlen := hi.len
  have hle : countRetired s.students ≤ s.students.length :=
    List.countP_le_length _
  refine ⟨by omega, by omega, ?_⟩
  intro hd
  have := hi.done_imp hd
  omega

/-- Witness for C10 at the final state of the concrete `cfg11` run. -/
theorem finished_bounds_witness :
    0 ≤ servedFinal.students_finished
    ∧ servedFinal.students_finished ≤ (cfg11.num_students : Int)
    ∧ (servedFinal.all_done = true →
        servedFinal.students_finished = (cfg11.num_students : Int)) :=
  finished_bounds cfg11
    (runLabels_reachable cfg11 servedSchedule servedFinal (by decide))

end TASim
